import Mathlib

/-
Verification of the Interslavic dictionary tool
(src/plugins/interslavic/skills/translate/translate.py).

The Python source is shallowly embedded below:
- `NORMALIZATION_MAP` / `normalize_text` mirror the character substitution
  table and the per-character normalizer;
- `likeChars` models the semantics of the SQLite `LIKE` operator used by
  `search` (the `%` and `_` wildcards; matching is case-insensitive for
  ASCII letters only, as documented for SQLite's default `LIKE`);
- `CacheState` models the two persisted artifacts (the SQLite database
  file and the metadata JSON file); `init_database`, `get_columns`,
  `needs_schema_update` and `search` mirror the functions of the same
  names, with file-system and SQLite effects made explicit as state
  passing (connecting creates the database file; DDL statements are
  committed immediately; an insert transaction that fails rolls back).
-/

namespace Interslavic

/-- Character normalization table from the source (`NORMALIZATION_MAP`):
maps diacritic ISV characters to ASCII equivalents; characters absent
from the table are unmapped (`none`). -/
def NORMALIZATION_MAP : Char → Option String
  | 'ę' => some "e"
  | 'ą' => some "a"
  | 'ų' => some "u"
  | 'ȯ' => some "o"
  | 'ė' => some "e"
  | 'å' => some "a"
  | 'ń' => some "n"
  | 'ť' => some "t"
  | 'ľ' => some "l"
  | 'ŕ' => some "r"
  | 'ď' => some "d"
  | 'ś' => some "s"
  | 'ź' => some "z"
  | 'ć' => some "c"
  | 'đ' => some "dj"
  | 'č' => some "c"
  | 'š' => some "s"
  | 'ž' => some "z"
  | 'ě' => some "e"
  | 'Č' => some "C"
  | 'Š' => some "S"
  | 'Ž' => some "Z"
  | 'Ę' => some "E"
  | 'Ą' => some "A"
  | 'Ų' => some "U"
  | 'Ń' => some "N"
  | 'Ť' => some "T"
  | 'Ľ' => some "L"
  | 'Ŕ' => some "R"
  | 'Ď' => some "D"
  | 'Ś' => some "S"
  | 'Ź' => some "Z"
  | 'Ć' => some "C"
  | 'Đ' => some "DJ"
  | _ => none

/-- Replacement for a single character: the table entry, or the character
itself when unmapped (models `NORMALIZATION_MAP.get(c, c)`). -/
def normChar (c : Char) : List Char :=
  match NORMALIZATION_MAP c with
  | some r => r.data
  | none => [c]

/-- Character-list form of the normalizer (models the generator expression
joined by `''.join`). -/
def normStr (l : List Char) : List Char := (l.map normChar).flatten

/-- Embedding of `normalize_text` from the source. -/
def normalize_text (s : String) : String := ⟨normStr s.data⟩

/-- ASCII-only lower-casing of one character, as used by SQLite's default
`LIKE` comparison (only `A`-`Z` fold; all other characters compare
exactly). -/
def asciiLower (c : Char) : Char :=
  if 'A' ≤ c ∧ c ≤ 'Z' then Char.ofNat (c.toNat + 32) else c

/-- Model of Python `str.lower` for one character, restricted to the
alphabets the program manipulates: ASCII letters plus the uppercase
diacritic ISV letters appearing in `NORMALIZATION_MAP`. -/
def pyLower (c : Char) : Char :=
  match c with
  | 'Č' => 'č'
  | 'Š' => 'š'
  | 'Ž' => 'ž'
  | 'Ę' => 'ę'
  | 'Ą' => 'ą'
  | 'Ų' => 'ų'
  | 'Ń' => 'ń'
  | 'Ť' => 'ť'
  | 'Ľ' => 'ľ'
  | 'Ŕ' => 'ŕ'
  | 'Ď' => 'ď'
  | 'Ś' => 'ś'
  | 'Ź' => 'ź'
  | 'Ć' => 'ć'
  | 'Đ' => 'đ'
  | _ => asciiLower c

/-- Model of Python `str.lower` on a string. -/
def pyLowerStr (s : String) : String := ⟨s.data.map pyLower⟩

/-- Model of Python `str.strip`: drop leading and trailing whitespace. -/
def pyStrip (s : String) : String :=
  ⟨((s.data.dropWhile Char.isWhitespace).reverse.dropWhile Char.isWhitespace).reverse⟩

/-- Column-name normalization performed by `init_database`:
`col.strip().lower()`. -/
def normCol (c : String) : String := pyLowerStr (pyStrip c)

/-- Semantics of the SQLite `LIKE` operator on character lists
(`likeChars pattern target`): `%` matches any sequence of characters
(equivalently, the rest of the pattern matches some suffix of the
target), `_` matches exactly one character, and any other pattern
character matches a single target character up to ASCII case folding. -/
def likeChars : List Char → List Char → Bool
  | [], cs => cs.isEmpty
  | p :: ps, cs =>
    if p = '%' then cs.tails.any (fun cs2 => likeChars ps cs2)
    else
      match cs with
      | [] => false
      | c :: cs2 =>
        (if p = '_' then true else asciiLower p == asciiLower c) && likeChars ps cs2

/-- String-level `LIKE`: `likeMatch pattern value`. -/
def likeMatch (pat s : String) : Bool := likeChars pat.data s.data

/-- The pattern built by `search` for a term: `f"%{term}%"`. -/
def mkPat (t : String) : String := "%" ++ t ++ "%"

/-- Case-insensitive (ASCII folding) prefix test on character lists;
specification-side definition used to characterize `LIKE` matching. -/
def startsWithCI : List Char → List Char → Bool
  | [], _ => true
  | _ :: _, [] => false
  | a :: t, b :: u => (asciiLower a == asciiLower b) && startsWithCI t u

/-- Case-insensitive (ASCII folding) substring-containment test;
specification-side definition used to characterize `LIKE` matching. -/
def substrCI (needle : List Char) : List Char → Bool
  | [] => startsWithCI needle []
  | c :: t => startsWithCI needle (c :: t) || substrCI needle t

/-- Exact (case-sensitive) prefix test on character lists; follows the
spec's words "substring containment ... case-sensitive". -/
def startsWithCS : List Char → List Char → Bool
  | [], _ => true
  | _ :: _, [] => false
  | a :: t, b :: u => (a == b) && startsWithCS t u

/-- Exact (case-sensitive) substring-containment test; follows the spec's
words "substring containment ... case-sensitive, matching source data
exactly as typed". -/
def substrCS (needle : List Char) : List Char → Bool
  | [] => startsWithCS needle []
  | c :: t => startsWithCS needle (c :: t) || substrCS needle t

/-- A term is literal for `LIKE` when it contains no wildcard
character. -/
def litFreeB (l : List Char) : Bool := l.all (fun c => (c != '%') && (c != '_'))

/-- Current schema version expected by the code (`SCHEMA_VERSION = 2`). -/
def SCHEMA_VERSION : Nat := 2

/-- One search result: the row's stable SQLite rowid, the visible cells
(column name and value, in column order — the dict comprehension
`{col: row[col] for col in columns}`), and the term that produced it
(the `_matched_term` tag). -/
structure Entry where
  rowid : Nat
  cells : List (String × String)
  matchedTerm : String
deriving DecidableEq

/-- Build the result entry for a matched row. -/
def mkEntry (cols : List String) (rid : Nat) (row : List String) (term : String) : Entry :=
  ⟨rid, cols.enum.map (fun p => (p.2, row.getD p.1 "")), term⟩

/-- The per-column `LIKE` condition built by `search`: the `isv` column is
tested through the `isv_normalized` shadow value (stored after the
`cols.length` visible cells) against the normalized term `nt`; every
other column is tested against the original term. -/
def colTest (cols row : List String) (term nt : String) (p : Nat × String) : Bool :=
  if p.2 = "isv" then likeMatch (mkPat nt) (row.getD cols.length "")
  else likeMatch (mkPat term) (row.getD p.1 "")

/-- A row matches a term when any column condition holds (the `OR` of the
`LIKE` conditions). -/
def rowMatches (cols row : List String) (term : String) : Bool :=
  cols.enum.any (colTest cols row term (normalize_text (pyLowerStr term)))

/-- The Python dict backing a result entry: the cells, with the
`_matched_term` key overwritten by the matched term. -/
def entryDict (e : Entry) : List (String × String) :=
  e.cells.filter (fun p => p.1 != "_matched_term") ++ [("_matched_term", e.matchedTerm)]

/-- The language filter of `search`: the code guards the filter with
`if lang:`, a Python truthiness test, so both an absent filter and an
empty-string filter keep every entry; with a non-empty filter `l`, keep
the entry iff `l.lower()` is a key of the entry dict with a truthy
(non-empty) value. -/
def keepEntry (lang : Option String) (e : Entry) : Bool :=
  match lang with
  | none => true
  | some l =>
    if l = "" then true
    else
      match (entryDict e).lookup (pyLowerStr l) with
      | some v => v != ""
      | none => false

/-- An entry has a non-empty cell for column `l` (condition of the
language filter, stated over the stored columns). -/
def nonemptyCol (e : Entry) (l : String) : Bool :=
  match e.cells.lookup l with
  | some v => v != ""
  | none => false

/-- One term's pass of `search`: scan the rows in rowid order; a matched
row not in `seen_rowids` is recorded as seen and its entry is emitted
when it passes the language filter. Returns the emitted entries and the
final `seen_rowids`. -/
def termPass (cols : List String) (lang : Option String) (term : String) :
    List (Nat × List String) → List Nat → List Entry × List Nat
  | [], seen => ([], seen)
  | (rid, row) :: rest, seen =>
    if rowMatches cols row term && !(seen.contains rid) then
      let res := termPass cols lang term rest (rid :: seen)
      (if keepEntry lang (mkEntry cols rid row term) then
        mkEntry cols rid row term :: res.1
      else res.1, res.2)
    else termPass cols lang term rest seen

/-- The term loop of `search`: passes run in input term order, threading
`seen_rowids` across terms; results are concatenated term-major. -/
def searchRows (cols : List String) (lang : Option String) :
    List String → List (Nat × List String) → List Nat → List Entry
  | [], _, _ => []
  | term :: ts, rows, seen =>
    let res := termPass cols lang term rows seen
    res.1 ++ searchRows cols lang ts rows res.2

/-- Stored rows paired with their SQLite rowids (1-based, insertion
order). -/
def enumRows (rows : List (List String)) : List (Nat × List String) :=
  rows.enum.map (fun p => (p.1 + 1, p.2))

/-- State of the database file at the cache location: absent, present but
without the `dictionary` table (as left by a bare `sqlite3.connect`), or
present with the table — visible column names plus rows, each row
holding the visible cells followed by the `isv_normalized` shadow
cell. -/
inductive DbFile where
  | empty : DbFile
  | withTable : List String → List (List String) → DbFile
deriving DecidableEq

/-- The metadata JSON file (fields relevant to the claims; a `none`
schema_version models a JSON object without the key). -/
structure Metadata where
  row_count : Nat
  columns : List String
  schema_version : Option Nat
deriving DecidableEq

/-- The two persisted artifacts at the cache location. -/
structure CacheState where
  db : Option DbFile
  meta : Option Metadata
deriving DecidableEq

/-- Errors `search` can raise: `notFound` is the `FileNotFoundError`
("Dictionary database not found"); `operational` models the
`sqlite3.OperationalError` raised when the file exists but holds no
`dictionary` table. -/
inductive SearchError where
  | notFound : SearchError
  | operational : SearchError
deriving DecidableEq

/-- Embedding of `search(terms, lang)`. -/
def search (terms : List String) (lang : Option String) (st : CacheState) :
    Except SearchError (List Entry) :=
  match st.db with
  | none => .error .notFound
  | some .empty => .error .operational
  | some (.withTable cols rows) =>
    .ok (searchRows cols lang terms (enumRows rows) [])

/-- Embedding of `needs_schema_update`:
`metadata.get("schema_version", 1) < SCHEMA_VERSION`, and `False` when
the metadata file is absent. -/
def needs_schema_update (st : CacheState) : Bool :=
  match st.meta with
  | none => false
  | some m => decide (m.schema_version.getD 1 < SCHEMA_VERSION)

/-- The persisted schema version: present only when the metadata file
exists and records the key. -/
def persistedVersion (st : CacheState) : Option Nat :=
  st.meta.bind Metadata.schema_version

/-- Embedding of `get_columns`: prefer the metadata column list; fall
back to `PRAGMA table_info(dictionary)` (the physical columns, shadow
column included) when only the database exists; `[]` otherwise. -/
def get_columns (st : CacheState) : List String :=
  match st.meta with
  | some m => m.columns
  | none =>
    match st.db with
    | some (.withTable cols _) => cols ++ ["isv_normalized"]
    | some .empty => []
    | none => []

/-- Duplicate-freedom check on column names, modelling SQLite's rejection
of `CREATE TABLE` with a duplicate column name. -/
def dupFree : List String → Bool
  | [] => true
  | c :: cs => !(cs.contains c) && dupFree cs

/-- Errors `init_database` can raise: the explicit `ValueError` for a
header-less CSV, SQLite's "duplicate column name" `OperationalError`,
and a write error raised by an insert mid-load. -/
inductive InitError where
  | noColumns : InitError
  | duplicateColumn : InitError
  | writeFailure : InitError
deriving DecidableEq

/-- The insert loop of `init_database`: row `k` raises a write error when
`failAt = some k` (modelling a simulated mid-write failure); otherwise
the row's values are padded to the column count with `""` and extended
with the normalized shadow value of the `isv` cell. -/
def insertRows (ncols : Nat) (isvIdx : Option Nat) (failAt : Option Nat) :
    List (List String) → Nat → Except Unit (List (List String))
  | [], _ => .ok []
  | row :: rest, k =>
    if failAt = some k then .error ()
    else
      let values := (List.range ncols).map (fun i => row.getD i "")
      let shadow := normalize_text (pyLowerStr
        (match isvIdx with | some i => values.getD i "" | none => ""))
      match insertRows ncols isvIdx failAt rest (k + 1) with
      | .ok rs => .ok ((values ++ [shadow]) :: rs)
      | .error e => .error e

/-- Embedding of `init_database` on a parsed CSV (header and data rows).
Effects are made explicit in the returned state: the prior database file
is unlinked before anything else; `sqlite3.connect` then creates an
empty file; `CREATE TABLE` rejects duplicate normalized column names; a
failed insert rolls the (uncommitted) insert transaction back, leaving
the committed empty table behind; the metadata file is written only
after a fully successful load. -/
def init_database (header : List String) (rows : List (List String))
    (failAt : Option Nat) (st : CacheState) : CacheState × Except InitError Nat :=
  let st1 : CacheState := { st with db := none }
  if header.isEmpty then (st1, .error .noColumns)
  else
    let cols := header.map normCol
    let st2 : CacheState := { st1 with db := some .empty }
    if dupFree (cols ++ ["isv_normalized"]) then
      let isvIdx := cols.findIdx? (fun c => c == "isv")
      match insertRows cols.length isvIdx failAt rows 0 with
      | .error _ => ({ st1 with db := some (.withTable cols []) }, .error .writeFailure)
      | .ok stored =>
        ({ db := some (.withTable cols stored),
           meta := some ⟨stored.length, cols, some SCHEMA_VERSION⟩ }, .ok stored.length)
    else (st2, .error .duplicateColumn)

/-- Exit code of the CLI's refresh path: `main` wraps `init_database` in
a blanket `except Exception` handler that prints the error and returns
exit code 1. -/
def refreshExitCode (header : List String) (rows : List (List String))
    (failAt : Option Nat) (st : CacheState) : Nat :=
  match (init_database header rows failAt st).2 with
  | .ok _ => 0
  | .error _ => 1

/-- A two-row store used as a concrete instance for the language-filter
theorem: row 1 has a non-empty `ru` cell, row 2 an empty one. -/
def stC7 : CacheState :=
  ⟨some (.withTable ["isv", "ru"] [["voda", "вода", "voda"], ["ognj", "", "ognj"]]), none⟩

/-- The state left by a successful one-row load with header `isv`. -/
def stC10 : CacheState :=
  ⟨some (.withTable ["isv"] [["x", "x"]]), some ⟨1, ["isv"], some 2⟩⟩

lemma normStr_cons (c : Char) (t : List Char) :
    normStr (c :: t) = normChar c ++ normStr t := by
  simp [normStr]

lemma normStr_append (a b : List Char) :
    normStr (a ++ b) = normStr a ++ normStr b := by
  simp [normStr]

/-- Every replacement string produced by the table consists of characters
that the table leaves unmapped, so normalizing a replacement is the
identity. -/
lemma normStr_normChar (c : Char) : normStr (normChar c) = normChar c := by
  rcases h : NORMALIZATION_MAP c with _ | r
  · have hc : normChar c = [c] := by simp [normChar, h]
    rw [hc]
    simp [normStr, List.flatten]
    exact hc
  · have hr : normChar c = r.data := by simp [normChar, h]
    rw [hr]
    revert h
    unfold NORMALIZATION_MAP
    split
    all_goals intro h
    all_goals first
      | exact Option.noConfusion h
      | (injection h with h; subst h; decide)

lemma normStr_idem (l : List Char) : normStr (normStr l) = normStr l := by
  induction l with
  | nil => simp [normStr]
  | cons c t ih =>
    rw [normStr_cons, normStr_append, ih, normStr_normChar]

lemma likeChars_single_pct (cs : List Char) : likeChars ['%'] cs = true := by
  induction cs with
  | nil => decide
  | cons c t ih =>
    simp only [likeChars, if_pos rfl, List.tails_cons, List.any_cons] at ih ⊢
    simp [ih]

lemma likeChars_lit_append_pct (t : List Char) (h1 : '%' ∉ t) (h2 : '_' ∉ t) :
    ∀ cs, likeChars (t ++ ['%']) cs = startsWithCI t cs := by
  induction t with
  | nil => intro cs; simpa [startsWithCI] using likeChars_single_pct cs
  | cons a t2 ih =>
    intro cs
    have ha1 : a ≠ '%' := fun h => h1 (h ▸ List.mem_cons_self a t2)
    have ha2 : a ≠ '_' := fun h => h2 (h ▸ List.mem_cons_self a t2)
    have ht1 : '%' ∉ t2 := fun h => h1 (List.mem_cons_of_mem a h)
    have ht2 : '_' ∉ t2 := fun h => h2 (List.mem_cons_of_mem a h)
    cases cs with
    | nil => simp [likeChars, startsWithCI, ha1]
    | cons c cs2 =>
      simp only [List.cons_append, likeChars, if_neg ha1, if_neg ha2, startsWithCI,
        List.append_eq]
      rw [ih ht1 ht2 cs2]

lemma likeChars_pct_cons (ps cs : List Char) :
    likeChars ('%' :: ps) cs = cs.tails.any (fun cs2 => likeChars ps cs2) := by
  simp [likeChars]

lemma likeChars_pct_lit_pct (t : List Char) (h1 : '%' ∉ t) (h2 : '_' ∉ t) :
    ∀ cs, likeChars ('%' :: (t ++ ['%'])) cs = substrCI t cs := by
  intro cs
  rw [likeChars_pct_cons]
  induction cs with
  | nil =>
    simp [List.tails, likeChars_lit_append_pct t h1 h2, substrCI]
  | cons c cs2 ih =>
    simp only [List.tails_cons, List.any_cons]
    rw [likeChars_lit_append_pct t h1 h2, ih]
    simp [substrCI]

lemma likeChars_pct_pct (cs : List Char) : likeChars ['%', '%'] cs = true := by
  cases cs with
  | nil => decide
  | cons c t =>
    rw [likeChars_pct_cons]
    simp [List.tails_cons, likeChars_single_pct]

lemma likeMatch_empty_pat (s : String) : likeMatch (mkPat "") s = true := by
  show likeChars ['%', '%'] s.data = true
  exact likeChars_pct_pct s.data

lemma rowMatches_empty (cols row : List String) (h : cols ≠ []) :
    rowMatches cols row "" = true := by
  obtain ⟨c, cs, rfl⟩ := List.exists_cons_of_ne_nil h
  apply List.any_eq_true.mpr
  refine ⟨(0, c), ?_, ?_⟩
  · simp [List.enum, List.enumFrom]
  · have hnt : normalize_text (pyLowerStr "") = "" := rfl
    by_cases hc : c = "isv" <;>
      simp [colTest, hc, hnt, likeMatch_empty_pat]

lemma keepEntry_none (e : Entry) : keepEntry none e = true := rfl

lemma lookup_filtered_append (cs : List (String × String)) (k mt v : String)
    (h : k ≠ mt) :
    ((cs.filter (fun p => p.1 != mt)) ++ [(mt, v)]).lookup k = cs.lookup k := by
  induction cs with
  | nil => simp [List.lookup, beq_false_of_ne h]
  | cons a cs2 ih =>
    obtain ⟨ak, av⟩ := a
    by_cases hak : ak = mt
    · have hp : ((ak, av).1 != mt) = false := by simp [hak]
      rw [List.filter_cons, if_neg (by simp [hak])]
      rw [ih]
      have hb : (k == ak) = false := beq_false_of_ne (fun hk => h (hk.trans hak))
      simp [List.lookup, hb]
    · have hp : ((ak, av).1 != mt) = true := by simp [hak]
      rw [List.filter_cons, if_pos hp]
      by_cases hk : k = ak
      · subst hk
        simp [List.lookup]
      · have hb : (k == ak) = false := beq_false_of_ne hk
        simp [List.lookup, hb, ih]

lemma keepEntry_eq (lang : String) (e : Entry) (hne : lang ≠ "")
    (h : pyLowerStr lang ≠ "_matched_term") :
    keepEntry (some lang) e = nonemptyCol e (pyLowerStr lang) := by
  show (if lang = "" then true
    else match ((e.cells.filter (fun p => p.1 != "_matched_term"))
        ++ [("_matched_term", e.matchedTerm)]).lookup (pyLowerStr lang) with
      | some v => v != ""
      | none => false) = nonemptyCol e (pyLowerStr lang)
  rw [if_neg hne,
    lookup_filtered_append e.cells (pyLowerStr lang) "_matched_term" e.matchedTerm h]
  rfl

lemma termPass_snd_lang (cols : List String) (term : String) (lang : Option String) :
    ∀ rows seen, (termPass cols lang term rows seen).2
      = (termPass cols none term rows seen).2 := by
  intro rows
  induction rows with
  | nil => intro seen; rfl
  | cons hd rest ih =>
    obtain ⟨rid, row⟩ := hd
    intro seen
    by_cases hm : (rowMatches cols row term && !(seen.contains rid)) = true
    · simp only [termPass, if_pos hm]
      exact ih (rid :: seen)
    · simp only [termPass, if_neg hm]
      exact ih seen

lemma termPass_fst_filter (cols : List String) (term lang : String) :
    ∀ rows seen, (termPass cols (some lang) term rows seen).1
      = ((termPass cols none term rows seen).1).filter (keepEntry (some lang)) := by
  intro rows
  induction rows with
  | nil => intro seen; rfl
  | cons hd rest ih =>
    obtain ⟨rid, row⟩ := hd
    intro seen
    by_cases hm : (rowMatches cols row term && !(seen.contains rid)) = true
    · simp only [termPass, if_pos hm, keepEntry_none, eq_self_iff_true, if_true,
        List.filter_cons, ih (rid :: seen)]
    · simp only [termPass, if_neg hm]
      exact ih seen

lemma searchRows_filter (cols : List String) (lang : String) :
    ∀ terms rows seen, searchRows cols (some lang) terms rows seen
      = (searchRows cols none terms rows seen).filter (keepEntry (some lang)) := by
  intro terms
  induction terms with
  | nil => intro rows seen; rfl
  | cons term ts ih =>
    intro rows seen
    simp only [searchRows]
    rw [termPass_fst_filter, termPass_snd_lang, ih, List.filter_append]

lemma termPass_seen_mono (cols : List String) (lang : Option String) (term : String) :
    ∀ rows seen x, x ∈ seen → x ∈ (termPass cols lang term rows seen).2 := by
  intro rows
  induction rows with
  | nil => intro seen x hx; exact hx
  | cons hd rest ih =>
    obtain ⟨rid, row⟩ := hd
    intro seen x hx
    by_cases hm : (rowMatches cols row term && !(seen.contains rid)) = true
    · simp only [termPass, if_pos hm]
      exact ih (rid :: seen) x (List.mem_cons_of_mem rid hx)
    · simp only [termPass, if_neg hm]
      exact ih seen x hx

lemma termPass_fst_rowid_mem_snd (cols : List String) (lang : Option String)
    (term : String) :
    ∀ rows seen e, e ∈ (termPass cols lang term rows seen).1 →
      e.rowid ∈ (termPass cols lang term rows seen).2 := by
  intro rows
  induction rows with
  | nil => intro seen e he; exact absurd he (List.not_mem_nil e)
  | cons hd rest ih =>
    obtain ⟨rid, row⟩ := hd
    intro seen e he
    by_cases hm : (rowMatches cols row term && !(seen.contains rid)) = true
    · simp only [termPass, if_pos hm] at he ⊢
      by_cases hk : keepEntry lang (mkEntry cols rid row term) = true
      · rw [if_pos hk] at he
        rcases List.mem_cons.mp he with rfl | he2
        · exact termPass_seen_mono cols lang term rest (rid :: seen) rid
            (List.mem_cons_self rid seen)
        · exact ih (rid :: seen) e he2
      · rw [if_neg hk] at he
        exact ih (rid :: seen) e he
    · simp only [termPass, if_neg hm] at he ⊢
      exact ih seen e he

lemma termPass_fst_rowid_notin_seen (cols : List String) (lang : Option String)
    (term : String) :
    ∀ rows seen e, e ∈ (termPass cols lang term rows seen).1 → e.rowid ∉ seen := by
  intro rows
  induction rows with
  | nil => intro seen e he; exact absurd he (List.not_mem_nil e)
  | cons hd rest ih =>
    obtain ⟨rid, row⟩ := hd
    intro seen e he
    by_cases hm : (rowMatches cols row term && !(seen.contains rid)) = true
    · simp only [termPass, if_pos hm] at he
      have hnotin : rid ∉ seen := by
        have h2 : (!(seen.contains rid)) = true := by
          rw [Bool.and_eq_true] at hm; exact hm.2
        simpa using h2
      by_cases hk : keepEntry lang (mkEntry cols rid row term) = true
      · rw [if_pos hk] at he
        rcases List.mem_cons.mp he with rfl | he2
        · exact hnotin
        · intro hs
          exact ih (rid :: seen) e he2 (List.mem_cons_of_mem rid hs)
      · rw [if_neg hk] at he
        intro hs
        exact ih (rid :: seen) e he (List.mem_cons_of_mem rid hs)
    · simp only [termPass, if_neg hm] at he
      exact ih seen e he

lemma termPass_fst_rowids_nodup (cols : List String) (lang : Option String)
    (term : String) :
    ∀ rows seen, (((termPass cols lang term rows seen).1).map Entry.rowid).Nodup := by
  intro rows
  induction rows with
  | nil => intro seen; simp [termPass]
  | cons hd rest ih =>
    obtain ⟨rid, row⟩ := hd
    intro seen
    by_cases hm : (rowMatches cols row term && !(seen.contains rid)) = true
    · simp only [termPass, if_pos hm]
      by_cases hk : keepEntry lang (mkEntry cols rid row term) = true
      · rw [if_pos hk]
        rw [List.map_cons, List.nodup_cons]
        constructor
        · intro hmem
          rcases List.mem_map.mp hmem with ⟨e, he, hid⟩
          have := termPass_fst_rowid_notin_seen cols lang term rest (rid :: seen) e he
          exact this (hid ▸ List.mem_cons_self rid seen)
        · exact ih (rid :: seen)
      · rw [if_neg hk]
        exact ih (rid :: seen)
    · simp only [termPass, if_neg hm]
      exact ih seen

lemma searchRows_rowid_notin_seen (cols : List String) (lang : Option String) :
    ∀ terms rows seen e, e ∈ searchRows cols lang terms rows seen →
      e.rowid ∉ seen := by
  intro terms
  induction terms with
  | nil => intro rows seen e he; exact absurd he (List.not_mem_nil e)
  | cons term ts ih =>
    intro rows seen e he
    simp only [searchRows] at he
    rcases List.mem_append.mp he with h1 | h2
    · exact termPass_fst_rowid_notin_seen cols lang term rows seen e h1
    · intro hs
      exact ih rows (termPass cols lang term rows seen).2 e h2
        (termPass_seen_mono cols lang term rows seen e.rowid hs)

lemma searchRows_rowids_nodup (cols : List String) (lang : Option String) :
    ∀ terms rows seen, ((searchRows cols lang terms rows seen).map Entry.rowid).Nodup := by
  intro terms
  induction terms with
  | nil => intro rows seen; simp [searchRows]
  | cons term ts ih =>
    intro rows seen
    simp only [searchRows, List.map_append]
    rw [List.nodup_append]
    refine ⟨termPass_fst_rowids_nodup cols lang term rows seen, ih rows _, ?_⟩
    intro a ha1 ha2
    rcases List.mem_map.mp ha1 with ⟨e1, he1, hid1⟩
    rcases List.mem_map.mp ha2 with ⟨e2, he2, hid2⟩
    have hin : e1.rowid ∈ (termPass cols lang term rows seen).2 :=
      termPass_fst_rowid_mem_snd cols lang term rows seen e1 he1
    have hout : e2.rowid ∉ (termPass cols lang term rows seen).2 :=
      searchRows_rowid_notin_seen cols lang ts rows _ e2 he2
    exact hout ((hid2.trans hid1.symm) ▸ hin)

lemma termPass_all (cols : List String) (term : String) :
    ∀ rows seen,
      (∀ p ∈ rows, rowMatches cols p.2 term = true) →
      ((rows.map Prod.fst).Nodup) →
      (∀ p ∈ rows, p.1 ∉ seen) →
      (termPass cols none term rows seen).1
        = rows.map (fun p => mkEntry cols p.1 p.2 term) := by
  intro rows
  induction rows with
  | nil => intro seen _ _ _; rfl
  | cons hd rest ih =>
    obtain ⟨rid, row⟩ := hd
    intro seen hmatch hnd hseen
    have h1 : rowMatches cols row term = true := hmatch (rid, row) (List.mem_cons_self _ _)
    have h2 : rid ∉ seen := hseen (rid, row) (List.mem_cons_self _ _)
    have hm : (rowMatches cols row term && !(seen.contains rid)) = true := by
      simp [h1, h2]
    simp only [termPass, if_pos hm, keepEntry_none, if_pos rfl]
    have hrest := ih (rid :: seen)
      (fun p hp => hmatch p (List.mem_cons_of_mem _ hp))
      ((List.nodup_cons.mp hnd).2)
      (fun p hp hx => by
        rcases List.mem_cons.mp hx with h | h
        · exact (List.nodup_cons.mp hnd).1 (List.mem_map.mpr ⟨p, hp, h⟩)
        · exact hseen p (List.mem_cons_of_mem _ hp) h)
    rw [List.map_cons]
    exact congrArg (mkEntry cols rid row term :: ·) hrest

lemma enumRows_fst_nodup (rows : List (List String)) :
    ((enumRows rows).map Prod.fst).Nodup := by
  have h : (enumRows rows).map Prod.fst
      = (rows.enum.map Prod.fst).map (fun n => n + 1) := by
    simp only [enumRows, List.map_map]
    rfl
  rw [h]
  exact (List.nodup_enum_map_fst rows).map (fun a b hab => by omega)

lemma dupFree_iff (l : List String) : dupFree l = true ↔ l.Nodup := by
  induction l with
  | nil => simp [dupFree]
  | cons c cs ih =>
    simp [dupFree, List.nodup_cons, ih]

lemma insertRows_none_ne_error (ncols : Nat) (isvIdx : Option Nat) :
    ∀ rows k e, insertRows ncols isvIdx none rows k ≠ .error e := by
  intro rows
  induction rows with
  | nil =>
    intro k e h
    simp [insertRows] at h
  | cons row rest ih =>
    intro k e h
    simp only [insertRows] at h
    rw [if_neg (by simp)] at h
    cases hrec : insertRows ncols isvIdx none rest (k + 1) with
    | ok rs => rw [hrec] at h; exact Except.noConfusion h
    | error e2 => exact ih (k + 1) e2 hrec

/-- C4: the normalizer is idempotent: for every string `x`,
`normalize_text (normalize_text x) = normalize_text x`, where the
normalizer maps each character independently through the fixed
substitution table and passes unmapped characters through unchanged. -/
theorem normalize_text_idempotent (s : String) :
    normalize_text (normalize_text s) = normalize_text s := by
  simp only [normalize_text]
  exact congrArg String.mk (normStr_idem s.data)

/-- C1 counterexample: in the store with the single row
`(isv: "a", en: "ab")`, the row matches both terms of
`search(["a", "b"])` (the second conjunct shows it matches `"b"`), yet
the result holds exactly one entry, tagged `"a"`: there is cross-term
deduplication, so the row does not appear once per matching term as the
claim states. -/
theorem cross_term_dedup_counterexample :
    rowMatches ["isv", "en"] ["a", "ab", "a"] "b" = true ∧
    search ["a", "b"] none ⟨some (.withTable ["isv", "en"] [["a", "ab", "a"]]), none⟩
      = .ok [⟨1, [("isv", "a"), ("en", "ab")], "a"⟩] ∧
    (⟨1, [("isv", "a"), ("en", "ab")], "a"⟩ : Entry).matchedTerm ≠ "b" := by
  refine ⟨by decide, rfl, by decide⟩

/-- C1 amended: deduplication by row identity is global across the whole
search invocation (the `seen_rowids` set is threaded across terms): a
row identity appears at most once in the entire concatenated result
sequence, hence also at most once per term. -/
theorem search_rowids_nodup (terms : List String) (lang : Option String)
    (st : CacheState) (l : List Entry) (h : search terms lang st = .ok l) :
    (l.map Entry.rowid).Nodup := by
  unfold search at h
  cases hdb : st.db with
  | none => rw [hdb] at h; exact Except.noConfusion h
  | some f =>
    cases f with
    | empty => rw [hdb] at h; exact Except.noConfusion h
    | withTable cols rows =>
      rw [hdb] at h
      injection h with h
      exact h ▸ searchRows_rowids_nodup cols lang terms (enumRows rows) []

/-- Witness for the amended C1 theorem at a concrete search. -/
theorem search_rowids_nodup_witness :
    (([⟨1, [("isv", "a"), ("en", "ab")], "a"⟩] : List Entry).map Entry.rowid).Nodup :=
  search_rowids_nodup ["a", "b"] none
    ⟨some (.withTable ["isv", "en"] [["a", "ab", "a"]]), none⟩
    [⟨1, [("isv", "a"), ("en", "ab")], "a"⟩] rfl

/-- C2 counterexample: in the store with the single row
`(isv: "x", en: "Water")` (shadow value `"x"`), the term `"water"` is
contained case-sensitively in no cell of the row, yet
`search(["water"])` returns the row (matched through the `en` column):
the non-source-column test is not case-sensitive. -/
theorem case_sensitivity_counterexample :
    substrCS "water".data "Water".data = false ∧
    substrCS "water".data "x".data = false ∧
    search ["water"] none ⟨some (.withTable ["isv", "en"] [["x", "Water", "x"]]), none⟩
      = .ok [⟨1, [("isv", "x"), ("en", "Water")], "water"⟩] := by
  refine ⟨by decide, by decide, rfl⟩

/-- C2 amended: for every wildcard-free term, each storage column other
than the source-language column is tested for substring containment of
the original, unnormalized term up to ASCII case folding (SQLite `LIKE`
is ASCII-case-insensitive): a cell differing from the term only in ASCII
letter case is a match on that column. -/
theorem nonisv_like_is_ci_substring (cols row : List String) (term nt : String)
    (i : Nat) (c : String) (hc : c ≠ "isv") (hlit : litFreeB term.data = true) :
    colTest cols row term nt (i, c) = substrCI term.data (row.getD i "").data := by
  have hall := List.all_eq_true.mp hlit
  have h1 : '%' ∉ term.data := by
    intro hm
    have := hall '%' hm
    simp at this
  have h2 : '_' ∉ term.data := by
    intro hm
    have := hall '_' hm
    simp at this
  have hp : (mkPat term).data = '%' :: (term.data ++ ['%']) := rfl
  show (if c = "isv" then likeMatch (mkPat nt) (row.getD cols.length "")
    else likeMatch (mkPat term) (row.getD i "")) = _
  rw [if_neg hc]
  show likeChars (mkPat term).data (row.getD i "").data = _
  rw [hp, likeChars_pct_lit_pct term.data h1 h2]

/-- Witness for the amended C2 theorem: the `en` column test for term
`"water"` on cell `"Water"` equals the ASCII-case-insensitive
containment test, and that test succeeds. -/
theorem nonisv_like_is_ci_substring_witness :
    colTest ["isv", "en"] ["x", "Water", "x"] "water" "water" (1, "en")
      = substrCI "water".data (["x", "Water", "x"].getD 1 "").data ∧
    substrCI "water".data (["x", "Water", "x"].getD 1 "").data = true :=
  ⟨nonisv_like_is_ci_substring ["isv", "en"] ["x", "Water", "x"] "water" "water" 1 "en"
    (by decide) (by decide), by decide⟩

/-- C3: a load that fails at the second insert leaves the database file
in place (created by `sqlite3.connect`, table committed, inserts rolled
back) and writes no metadata; a subsequent search therefore does NOT
fail with the missing-store error — it succeeds with an empty result
list, contradicting the claim (the code's slip; the spec's load-failure
contract requires a `NotFoundError`). -/
theorem failed_load_leaves_searchable_state :
    init_database ["isv", "en"] [["voda", "water"], ["ognj", "fire"]] (some 1) ⟨none, none⟩
      = (⟨some (.withTable ["isv", "en"] []), none⟩, .error .writeFailure) ∧
    search ["voda"] none ⟨some (.withTable ["isv", "en"] []), none⟩ = .ok [] ∧
    search ["voda"] none ⟨some (.withTable ["isv", "en"] []), none⟩ ≠ .error .notFound := by
  refine ⟨rfl, rfl, fun h => Except.noConfusion h⟩

/-- C5 counterexample: a metadata file without a `schema_version` key
makes `needs_schema_update` return true (the code defaults the version
to 1), although no persisted schema version is present — refuting the
claimed "if and only if a persisted schema version is present". -/
theorem needs_update_without_persisted_version :
    needs_schema_update ⟨none, some ⟨0, [], none⟩⟩ = true ∧
    ¬ ∃ v, persistedVersion ⟨none, some ⟨0, [], none⟩⟩ = some v ∧ v < SCHEMA_VERSION := by
  refine ⟨rfl, ?_⟩
  rintro ⟨v, hv, _⟩
  simp [persistedVersion] at hv

/-- C5 amended: `needs_schema_update` returns true iff the metadata file
exists and its recorded schema version — defaulting to 1 when the key is
absent — is strictly less than the current expected version; in
particular it returns false when no metadata exists at all. -/
theorem needs_schema_update_iff (st : CacheState) :
    needs_schema_update st = true
      ↔ ∃ m, st.meta = some m ∧ m.schema_version.getD 1 < SCHEMA_VERSION := by
  cases hm : st.meta with
  | none => simp [needs_schema_update, hm]
  | some m => simp [needs_schema_update, hm]

/-- C6: `search` fails with the missing-store error exactly when no
database file exists at the cache location; when a store (with its
table) exists, the search always returns a result list — an empty list
is a valid non-error outcome. -/
theorem search_missing_store (terms : List String) (lang : Option String)
    (st : CacheState) :
    (search terms lang st = .error .notFound ↔ st.db = none) ∧
    (∀ cols rows, st.db = some (.withTable cols rows) →
      search terms lang st = .ok (searchRows cols lang terms (enumRows rows) [])) := by
  constructor
  · cases hdb : st.db with
    | none => simp [search, hdb]
    | some f =>
      cases f with
      | empty => simp [search, hdb]
      | withTable cols rows => simp [search, hdb]
  · intro cols rows hdb
    simp [search, hdb]

/-- Witness for the C6 theorem: a missing store raises the error and an
empty store yields the empty, non-error result. -/
theorem search_missing_store_witness :
    (search ["x"] none ⟨none, none⟩ = .error .notFound) ∧
    (search ["x"] none ⟨some (.withTable ["isv"] []), none⟩ = .ok []) :=
  ⟨(search_missing_store ["x"] none ⟨none, none⟩).1.mpr rfl,
   (search_missing_store ["x"] none ⟨some (.withTable ["isv"] []), none⟩).2 ["isv"] [] rfl⟩

/-- C7: a search with a supplied (non-empty — the code's `if lang:`
truthiness guard ignores an empty-string filter) language filter
returns exactly the unfiltered search results restricted to entries
whose filter-named (lowercased) column holds a non-empty value: the
filter is applied after term matching (the `seen_rowids` threading is
unaffected by the filter). -/
theorem search_language_filter (terms : List String) (lang : String)
    (st : CacheState) (cols : List String) (rows : List (List String))
    (hdb : st.db = some (.withTable cols rows))
    (hne : lang ≠ "")
    (hlang : pyLowerStr lang ≠ "_matched_term") :
    search terms (some lang) st
      = (search terms none st).map
          (fun l => l.filter (fun e => nonemptyCol e (pyLowerStr lang))) := by
  simp only [search, hdb, Except.map]
  rw [searchRows_filter]
  congr 1
  apply List.filter_congr
  intro e _
  exact keepEntry_eq lang e hne hlang

/-- Witness for the C7 theorem at a concrete two-row store. -/
theorem search_language_filter_witness :
    search ["o"] (some "ru") stC7
      = (search ["o"] none stC7).map
          (fun l => l.filter (fun e => nonemptyCol e (pyLowerStr "ru"))) :=
  search_language_filter ["o"] "ru" stC7 ["isv", "ru"]
    [["voda", "вода", "voda"], ["ognj", "", "ognj"]] rfl (by decide) (by decide)

/-- C8: a column list whose normalized (lowercased, trimmed) names
contain duplicates is rejected in a controlled way: `init_database`
terminates with the duplicate-column error (SQLite refuses the `CREATE
TABLE`), never a last-wins schema, and the CLI's refresh path turns it
into exit code 1 — no unhandled crash. -/
theorem duplicate_columns_rejected (header : List String)
    (rows : List (List String)) (failAt : Option Nat) (st : CacheState)
    (hne : header ≠ []) (hdup : ¬ (header.map normCol).Nodup) :
    (init_database header rows failAt st).2 = .error .duplicateColumn ∧
    refreshExitCode header rows failAt st = 1 := by
  have hie : header.isEmpty = false := by
    cases header with
    | nil => exact absurd rfl hne
    | cons a t => rfl
  have hdf : dupFree (header.map normCol ++ ["isv_normalized"]) = false := by
    by_contra hcon
    have ht : dupFree (header.map normCol ++ ["isv_normalized"]) = true := by
      revert hcon
      cases dupFree (header.map normCol ++ ["isv_normalized"]) <;> simp
    exact hdup ((dupFree_iff _).mp ht).of_append_left
  constructor
  · simp [init_database, hie, hdf]
  · simp [refreshExitCode, init_database, hie, hdf]

/-- Witness for the C8 theorem: the header `["A", "a"]` normalizes to
duplicate names and is rejected with exit code 1. -/
theorem duplicate_columns_rejected_witness :
    (init_database ["A", "a"] [] none ⟨none, none⟩).2 = .error .duplicateColumn ∧
    refreshExitCode ["A", "a"] [] none ⟨none, none⟩ = 1 :=
  duplicate_columns_rejected ["A", "a"] [] none ⟨none, none⟩ (by decide) (by decide)

/-- C9: searching with the empty-string term is not an error: against any
store with at least one column, the empty term matches every row (the
`LIKE` pattern `%%` holds trivially), so the result is the full list of
rows, each tagged with the empty term. -/
theorem search_empty_term (cols : List String) (rows : List (List String))
    (m : Option Metadata) (h : cols ≠ []) :
    search [""] none ⟨some (.withTable cols rows), m⟩
      = .ok ((enumRows rows).map (fun p => mkEntry cols p.1 p.2 "")) := by
  have hm : ∀ p ∈ enumRows rows, rowMatches cols p.2 "" = true :=
    fun p _ => rowMatches_empty cols p.2 h
  have hnd : ((enumRows rows).map Prod.fst).Nodup := enumRows_fst_nodup rows
  have hseen : ∀ p ∈ enumRows rows, p.1 ∉ ([] : List Nat) := by simp
  simp only [search, searchRows]
  rw [termPass_all cols "" (enumRows rows) [] hm hnd hseen]
  simp

/-- Witness for the C9 theorem: the empty term returns every row of a
one-row store. -/
theorem search_empty_term_witness :
    search [""] none ⟨some (.withTable ["isv", "en"] [["a", "b", "a"]]), none⟩
      = .ok ((enumRows [["a", "b", "a"]]).map (fun p => mkEntry ["isv", "en"] p.1 p.2 "")) :=
  search_empty_term ["isv", "en"] [["a", "b", "a"]] none (by decide)

/-- C10: after a successful load, metadata exists and `get_columns`
returns the metadata column list, which never contains
`isv_normalized`; with the metadata file absent but the database
present, `get_columns` falls back to the physical table columns and
therefore exposes the hidden `isv_normalized` shadow column. -/
theorem get_columns_shadow_column (header : List String)
    (rows : List (List String)) (st st2 : CacheState) (n : Nat)
    (h : init_database header rows none st = (st2, .ok n)) :
    "isv_normalized" ∉ get_columns st2 ∧
    get_columns { st2 with meta := none } = header.map normCol ++ ["isv_normalized"] ∧
    "isv_normalized" ∈ get_columns { st2 with meta := none } := by
  simp only [init_database] at h
  by_cases hie : header.isEmpty = true
  · rw [if_pos hie] at h
    exact absurd (congrArg Prod.snd h) (by simp)
  · rw [if_neg hie] at h
    by_cases hdf : dupFree (header.map normCol ++ ["isv_normalized"]) = true
    · rw [if_pos hdf] at h
      cases hins : insertRows (header.map normCol).length
          (List.findIdx? (fun c => c == "isv") (header.map normCol)) none rows 0 with
      | error e => exact absurd hins (insertRows_none_ne_error _ _ rows 0 e)
      | ok stored =>
        rw [hins] at h
        have ha : ({ db := some (.withTable (header.map normCol) stored),
                     meta :=
                       some ⟨stored.length, header.map normCol, some SCHEMA_VERSION⟩ } :
              CacheState) = st2 := congrArg Prod.fst h
        have hnd : (header.map normCol ++ ["isv_normalized"]).Nodup :=
          (dupFree_iff _).mp hdf
        have hni : "isv_normalized" ∉ header.map normCol := by
          intro hmem
          exact (List.nodup_append.mp hnd).2.2 hmem (by simp)
        subst ha
        refine ⟨hni, rfl, ?_⟩
        simp [get_columns]
    · rw [if_neg hdf] at h
      exact absurd (congrArg Prod.snd h) (by simp)

/-- Witness for the C10 theorem at a concrete successful one-row load. -/
theorem get_columns_shadow_column_witness :
    "isv_normalized" ∉ get_columns stC10 ∧
    get_columns { stC10 with meta := none }
      = ["isv"].map normCol ++ ["isv_normalized"] ∧
    "isv_normalized" ∈ get_columns { stC10 with meta := none } :=
  get_columns_shadow_column ["isv"] [["x"]] ⟨none, none⟩ stC10 1 rfl

end Interslavic
